import Mathlib

/-
Verification of the node-graph core of egui-snarl (src/lib.rs) against its
natural-language specification.

The Rust source is shallowly embedded:
  * `slab::Slab` (the node-slot allocator used by the container) is embedded with
    its actual free-list semantics: a vector of entries that are either vacant
    (holding the next free-list index) or occupied, a live count `len`, and the
    free-list head `next`.  `Slab::remove` panics on a dead key; the panic is
    modelled by returning `none`, and because `try_remove` restores the entry
    before panicking, the failing slab is returned unchanged.
  * `egui::ahash::HashSet<Wire>` is embedded as a duplicate-free list; `insert`
    appends (iteration order of a hash set is unspecified, so theorems about
    query results are stated up to permutation where the order matters).
  * `egui::Pos2` holds two `f32` coordinates that this core only stores and
    returns, never computes with; they are modelled as integers.
  * `RefCell<T>` only matters for payload borrowing, which no claim touches;
    the payload is embedded directly.
  * Functions that can panic return `Option`/`Except`; `none`/`error` marks the
    panic, never a silently ignored call.
-/

set_option maxHeartbeats 1000000

namespace EguiSnarl

/-- Model of `egui::Pos2`: the position of a node's top-left corner.  The source
stores two `f32` scalars and never performs arithmetic on them in this core, so
they are embedded as integers. -/
structure Pos2 where
  x : Int
  y : Int
deriving DecidableEq

/-- Output pin identifier (`OutPinId` in the source): node index plus output pin
index. -/
structure OutPinId where
  node : Nat
  output : Nat
deriving DecidableEq

/-- Input pin identifier (`InPinId` in the source): node index plus input pin
index. -/
structure InPinId where
  node : Nat
  input : Nat
deriving DecidableEq

/-- Connection between two nodes (`Wire` in the source). -/
structure Wire where
  out_pin : OutPinId
  in_pin : InPinId
deriving DecidableEq

/-- `fn wire_pins(out_pin, in_pin) -> Wire` from the source. -/
def wire_pins (out_pin : OutPinId) (in_pin : InPinId) : Wire :=
  ⟨out_pin, in_pin⟩

/-- One slot of `slab::Slab`: vacant slots carry the index of the next slot on
the free list. -/
inductive Entry (T : Type) where
  | vacant (next : Nat)
  | occupied (val : T)
deriving DecidableEq

/-- Model of `slab::Slab<T>`: entry vector, number of occupied slots, and the
head of the vacant free list. -/
structure Slab (T : Type) where
  entries : List (Entry T)
  len : Nat
  next : Nat
deriving DecidableEq

/-- `Slab::new()`. -/
def Slab.new {T : Type} : Slab T :=
  ⟨[], 0, 0⟩

/-- `Slab::contains(key)`: the key denotes an occupied slot. -/
def Slab.contains {T : Type} (s : Slab T) (key : Nat) : Bool :=
  match s.entries.get? key with
  | some (Entry.occupied _) => true
  | _ => false

/-- Payload stored at a key, if the slot is occupied (used to state that
`remove` returns the stored payload). -/
def Slab.getValue {T : Type} (s : Slab T) (key : Nat) : Option T :=
  match s.entries.get? key with
  | some (Entry.occupied v) => some v
  | _ => none

/-- Number of occupied slots, counted directly over the entry vector. -/
def Slab.liveCount {T : Type} (s : Slab T) : Nat :=
  (s.entries.filter fun e =>
    match e with
    | Entry.occupied _ => true
    | _ => false).length

/-- `Slab::insert(val) -> key`: takes the free-list head; either grows the
vector or reuses the vacant slot there.  The `unreachable!()` arm of the source
(free-list head pointing at an occupied slot) cannot fire on well-formed slabs
(`Slab.WF` below); it is mapped to a no-op result here and proved unreachable. -/
def Slab.insert {T : Type} (s : Slab T) (val : T) : Nat × Slab T :=
  if s.next = s.entries.length then
    (s.next, ⟨s.entries ++ [Entry.occupied val], s.len + 1, s.next + 1⟩)
  else
    match s.entries.get? s.next with
    | some (Entry.vacant n) =>
        (s.next, ⟨s.entries.set s.next (Entry.occupied val), s.len + 1, n⟩)
    | _ => (s.next, s)

/-- `Slab::remove(key)`: on an occupied slot, vacate it (the vacated slot
becomes the new free-list head) and return the payload.  On a dead key the
source panics after `try_remove` restored the entry, so the failing call is
modelled as `(none, s)`: a fatal error with the slab unchanged. -/
def Slab.remove {T : Type} (s : Slab T) (key : Nat) : Option T × Slab T :=
  match s.entries.get? key with
  | some (Entry.occupied v) =>
      (some v, ⟨s.entries.set key (Entry.vacant s.next), s.len - 1, key⟩)
  | _ => (none, s)

/-- A node record (`Node<T>` in the source): payload (the `RefCell` wrapper is
dropped — no claim concerns runtime borrow tracking), position, and the
open/collapsed flag (`open` in the source; renamed because `open` is a Lean
keyword). -/
structure Node (T : Type) where
  value : T
  pos : Pos2
  open_flag : Bool
deriving DecidableEq

/-- Model of `struct Wires { wires: HashSet<Wire> }`: a duplicate-free list. -/
structure Wires where
  wires : List Wire
deriving DecidableEq

/-- `Wires::new()`. -/
def Wires.new : Wires :=
  ⟨[]⟩

/-- `Wires::insert(wire) -> bool` (via `HashSet::insert`): no-op returning
`false` on a duplicate, otherwise adds the wire and returns `true`. -/
def Wires.insert (ws : Wires) (w : Wire) : Bool × Wires :=
  if w ∈ ws.wires then (false, ws) else (true, ⟨ws.wires ++ [w]⟩)

/-- `Wires::remove(wire) -> bool` (via `HashSet::remove`). -/
def Wires.remove (ws : Wires) (w : Wire) : Bool × Wires :=
  (decide (w ∈ ws.wires), ⟨ws.wires.erase w⟩)

/-- `Wires::drop_node(node)`: retain only wires with neither endpoint on
`node`. -/
def Wires.drop_node (ws : Wires) (node : Nat) : Wires :=
  ⟨ws.wires.filter fun w => w.out_pin.node != node && w.in_pin.node != node⟩

/-- `Wires::drop_inputs(pin)`: retain only wires whose input endpoint differs
from `pin`. -/
def Wires.drop_inputs (ws : Wires) (pin : InPinId) : Wires :=
  ⟨ws.wires.filter fun w => w.in_pin != pin⟩

/-- `Wires::drop_outputs(pin)`: retain only wires whose output endpoint differs
from `pin`. -/
def Wires.drop_outputs (ws : Wires) (pin : OutPinId) : Wires :=
  ⟨ws.wires.filter fun w => w.out_pin != pin⟩

/-- `Wires::wired_inputs(out_pin)`: input endpoints of all wires leaving
`out_pin`. -/
def Wires.wired_inputs (ws : Wires) (out_pin : OutPinId) : List InPinId :=
  (ws.wires.filter fun w => w.out_pin == out_pin).map fun w => w.in_pin

/-- `Wires::wired_outputs(in_pin)`: output endpoints of all wires entering
`in_pin`. -/
def Wires.wired_outputs (ws : Wires) (in_pin : InPinId) : List OutPinId :=
  (ws.wires.filter fun w => w.in_pin == in_pin).map fun w => w.out_pin

/-- `Wires::iter()`: all wires. -/
def Wires.iter (ws : Wires) : List Wire :=
  ws.wires

/-- The graph container (`Snarl<T>` in the source): slot allocator of nodes,
draw order, and the wire set. -/
structure Snarl (T : Type) where
  nodes : Slab (Node T)
  draw_order : List Nat
  wires : Wires
deriving DecidableEq

/-- `Snarl::new()`. -/
def Snarl.new {T : Type} : Snarl T :=
  ⟨Slab.new, [], Wires.new⟩

/-- `Snarl::add_node(node, pos)`: allocate an open node and append its
identifier to the draw order. -/
def Snarl.add_node {T : Type} (s : Snarl T) (node : T) (pos : Pos2) : Nat × Snarl T :=
  ((s.nodes.insert ⟨node, pos, true⟩).1,
    ⟨(s.nodes.insert ⟨node, pos, true⟩).2,
      s.draw_order ++ [(s.nodes.insert ⟨node, pos, true⟩).1], s.wires⟩)

/-- `Snarl::add_node_collapsed(node, pos)`: same as `add_node` with
`open = false`. -/
def Snarl.add_node_collapsed {T : Type} (s : Snarl T) (node : T) (pos : Pos2) : Nat × Snarl T :=
  ((s.nodes.insert ⟨node, pos, false⟩).1,
    ⟨(s.nodes.insert ⟨node, pos, false⟩).2,
      s.draw_order ++ [(s.nodes.insert ⟨node, pos, false⟩).1], s.wires⟩)

/-- Model of `self.draw_order.iter().position(|&i| i == idx)`: index of the
first occurrence of `idx`. -/
def position (l : List Nat) (idx : Nat) : Option Nat :=
  match l with
  | [] => none
  | i :: rest => if i = idx then some 0 else (position rest idx).map (· + 1)

/-- `Snarl::remove_node(idx)`: remove the slot (first action — panics there on
a dead key with the state untouched, because `Slab::try_remove` restores the
entry before the panic), cascade-drop the wires, then locate `idx` in the draw
order by value and remove it (the `.unwrap()` panic of that lookup is the
second `none` arm; it fires only after the first two mutations). -/
def Snarl.remove_node {T : Type} (s : Snarl T) (idx : Nat) : Option T × Snarl T :=
  match s.nodes.remove idx with
  | (none, _) => (none, s)
  | (some node, nodes') =>
    match position s.draw_order idx with
    | none => (none, ⟨nodes', s.draw_order, s.wires.drop_node idx⟩)
    | some order =>
      (some node.value, ⟨nodes', s.draw_order.eraseIdx order, s.wires.drop_node idx⟩)

/-- `Snarl::connect(from, to) -> bool`: builds the wire and delegates to
`Wires::insert`.  The two `debug_assert!(self.nodes.contains(..))` liveness
checks of the source are compiled out of optimized builds and are modelled as
absent: the function proceeds unconditionally. -/
def Snarl.connect {T : Type} (s : Snarl T) (o : OutPinId) (i : InPinId) : Bool × Snarl T :=
  ((s.wires.insert ⟨o, i⟩).1, ⟨s.nodes, s.draw_order, (s.wires.insert ⟨o, i⟩).2⟩)

/-- Modelled from the spec: `disconnect` at container scope — the container
re-exposure of the Wire Set operations ("construct a `Wire` ... and delegate")
is not in the part of the source under src/ (lib.rs's `impl Snarl` ends at
`connect`; the repository's `ui` module is not provided), so it is modelled
from the spec's words. -/
def Snarl.disconnect {T : Type} (s : Snarl T) (o : OutPinId) (i : InPinId) : Bool × Snarl T :=
  ((s.wires.remove (wire_pins o i)).1,
    ⟨s.nodes, s.draw_order, (s.wires.remove (wire_pins o i)).2⟩)

/-- Modelled from the spec: container-scope `drop_inputs`, delegating to the
Wire Set (see `Snarl.disconnect` for why this is spec-modelled). -/
def Snarl.drop_inputs {T : Type} (s : Snarl T) (pin : InPinId) : Snarl T :=
  ⟨s.nodes, s.draw_order, s.wires.drop_inputs pin⟩

/-- Modelled from the spec: container-scope `drop_outputs`, delegating to the
Wire Set. -/
def Snarl.drop_outputs {T : Type} (s : Snarl T) (pin : OutPinId) : Snarl T :=
  ⟨s.nodes, s.draw_order, s.wires.drop_outputs pin⟩

/-- Modelled from the spec: container-scope `wired_inputs` query, delegating to
the Wire Set. -/
def Snarl.wired_inputs {T : Type} (s : Snarl T) (pin : OutPinId) : List InPinId :=
  s.wires.wired_inputs pin

/-- Modelled from the spec: container-scope `wired_outputs` query, delegating
to the Wire Set. -/
def Snarl.wired_outputs {T : Type} (s : Snarl T) (pin : InPinId) : List OutPinId :=
  s.wires.wired_outputs pin

/-- Modelled from the spec: container-scope full wire iteration, delegating to
the Wire Set. -/
def Snarl.wires_iter {T : Type} (s : Snarl T) : List Wire :=
  s.wires.iter

/-- A node-lifecycle operation of the container API (for stating invariants
over arbitrary operation sequences). -/
inductive Op (T : Type) where
  | add (v : T) (pos : Pos2)
  | add_collapsed (v : T) (pos : Pos2)
  | remove (idx : Nat)

/-- Apply one lifecycle operation to a container.  A `remove` whose key is dead
panics before mutating anything (see `Slab.remove`), so the post-state of such
a call is the unchanged container. -/
def Snarl.step {T : Type} (s : Snarl T) : Op T → Snarl T
  | Op.add v p => (s.add_node v p).2
  | Op.add_collapsed v p => (s.add_node_collapsed v p).2
  | Op.remove idx => (s.remove_node idx).2

/-- Run a sequence of lifecycle operations from the empty container. -/
def Snarl.run {T : Type} (ops : List (Op T)) : Snarl T :=
  ops.foldl Snarl.step Snarl.new

/-- A wire touches node `n` when either endpoint lies on `n`. -/
def wireTouches (w : Wire) (n : Nat) : Bool :=
  w.out_pin.node == n || w.in_pin.node == n

/-- Connect one output pin to each input pin of a list in turn, collecting the
results (for the fan-out property). -/
def connect_inputs {T : Type} : Snarl T → OutPinId → List InPinId → List Bool × Snarl T
  | s, _, [] => ([], s)
  | s, p, i :: rest =>
    ((s.connect p i).1 :: (connect_inputs (s.connect p i).2 p rest).1,
      (connect_inputs (s.connect p i).2 p rest).2)

/-- Connect each output pin of a list to one input pin in turn, collecting the
results (for the fan-in property). -/
def connect_outputs {T : Type} : Snarl T → InPinId → List OutPinId → List Bool × Snarl T
  | s, _, [] => ([], s)
  | s, q, o :: rest =>
    ((s.connect o q).1 :: (connect_outputs (s.connect o q).2 q rest).1,
      (connect_outputs (s.connect o q).2 q rest).2)

/-- The vacant free list of a slab: starting at index `k`, the listed indices
are vacant entries linked in order, and the chain terminates by pointing one
past the end of the entry vector. -/
inductive FreeChain {T : Type} (entries : List (Entry T)) : Nat → List Nat → Prop where
  | nil : FreeChain entries entries.length []
  | cons {k n : Nat} {ks : List Nat} :
      entries.get? k = some (Entry.vacant n) →
      FreeChain entries n ks →
      FreeChain entries k (k :: ks)

/-- Well-formedness of a slab: the vacant slots are exactly the members of a
duplicate-free free-list chain headed by `next`.  Every slab reachable through
the API satisfies this (`Slab.new` trivially, and both `insert` and `remove`
preserve it). -/
def Slab.WF {T : Type} (s : Slab T) : Prop :=
  ∃ fl : List Nat, FreeChain s.entries s.next fl ∧ fl.Nodup ∧
    ∀ i : Nat, (∃ n, s.entries.get? i = some (Entry.vacant n)) ↔ i ∈ fl

/-- The draw-order invariant of the spec: the draw order lists each live node
identifier exactly once and nothing else. -/
def Snarl.DrawInv {T : Type} (s : Snarl T) : Prop :=
  s.draw_order.Nodup ∧ ∀ i : Nat, i ∈ s.draw_order ↔ s.nodes.contains i = true

/-- Full structural invariant of a container: allocator well-formedness plus
the draw-order invariant. -/
def Snarl.Inv {T : Type} (s : Snarl T) : Prop :=
  s.nodes.WF ∧ s.DrawInv

/-
Structural-serialization model (for the round-trip claim), specialised to
`Snarl String`.  `SValue` is the tagged record/array representation of the
spec: an object preserves entry order and admits repeated keys, exactly as the
textual form produced by the serde derives does.  The serializers follow the
serde attributes of the source: `Wire` flattens both pin objects
(`#[serde(flatten)]`), `Wires` is transparent, `Slab` serializes as a map from
slot index to node record, and the derived struct deserializers consume fields
in encounter order, ignore unknown keys, and reject a repeated known field as
a duplicate-field error.
-/

/-- A structural serialization value: numbers, coordinate scalars, booleans,
strings, arrays, objects keyed by field name (entry order preserved, repeated
keys allowed) and maps keyed by integers (slab serializes as a map from slot
index to record; serde's data model passes the `usize` keys through). -/
inductive SValue where
  | num (n : Nat)
  | coord (i : Int)
  | bool (b : Bool)
  | str (s : String)
  | arr (elems : List SValue)
  | obj (fields : List (String × SValue))
  | nmap (entries : List (Nat × SValue))

/-- Serialize a position (`egui::Pos2` serde derive: fields `x`, `y`). -/
def serPos2 (p : Pos2) : SValue :=
  SValue.obj [("x", SValue.coord p.x), ("y", SValue.coord p.y)]

/-- Serialize a node record (`value`, `pos`, `open`; `RefCell` serializes as
its content). -/
def serNode (nd : Node String) : SValue :=
  SValue.obj
    [("value", SValue.str nd.value), ("pos", serPos2 nd.pos),
     ("open", SValue.bool nd.open_flag)]

/-- Field list of a serialized `OutPinId`. -/
def serOutPinFields (p : OutPinId) : List (String × SValue) :=
  [("node", SValue.num p.node), ("output", SValue.num p.output)]

/-- Field list of a serialized `InPinId`. -/
def serInPinFields (p : InPinId) : List (String × SValue) :=
  [("node", SValue.num p.node), ("input", SValue.num p.input)]

/-- Serialize a wire: `#[serde(flatten)]` on both pins splices the two field
lists into one object. -/
def serWire (w : Wire) : SValue :=
  SValue.obj (serOutPinFields w.out_pin ++ serInPinFields w.in_pin)

/-- Serialize the wire set: `#[serde(transparent)]`, so the set itself appears
as a sequence of wires. -/
def serWires (ws : Wires) : SValue :=
  SValue.arr (ws.wires.map serWire)

/-- Occupied slots of a slab entry vector, as serialized map entries keyed by
the slot index (slab's serde support serializes a slab as a map from key to
value, iterating occupied slots in ascending key order). -/
def slabPairs : List (Entry (Node String)) → Nat → List (Nat × SValue)
  | [], _ => []
  | Entry.occupied nd :: rest, i => (i, serNode nd) :: slabPairs rest (i + 1)
  | Entry.vacant _ :: rest, i => slabPairs rest (i + 1)

/-- Serialize the node allocator. -/
def serSlab (sl : Slab (Node String)) : SValue :=
  SValue.nmap (slabPairs sl.entries 0)

/-- Serialize a whole container (`Snarl` derive: fields `nodes`, `draw_order`,
`wires`). -/
def serSnarl (s : Snarl String) : SValue :=
  SValue.obj
    [("nodes", serSlab s.nodes),
     ("draw_order", SValue.arr (s.draw_order.map SValue.num)),
     ("wires", serWires s.wires)]

/-- Deserialize an integer. -/
def dNum : SValue → Except String Nat
  | SValue.num n => Except.ok n
  | _ => Except.error "expected integer"

/-- Deserialize a coordinate scalar. -/
def dCoord : SValue → Except String Int
  | SValue.coord i => Except.ok i
  | _ => Except.error "expected number"

/-- Deserialize a boolean. -/
def dBool : SValue → Except String Bool
  | SValue.bool b => Except.ok b
  | _ => Except.error "expected boolean"

/-- Deserialize a string. -/
def dStr : SValue → Except String String
  | SValue.str s => Except.ok s
  | _ => Except.error "expected string"

/-- Derived struct deserialization of `OutPinId` from a flattened field list:
serde's flat-map access feeds every entry whose key belongs to the struct
(`node`, `output`) to the visitor, which rejects a key it has already seen as
a duplicate field. -/
def dOutPinGo : List (String × SValue) → Option Nat → Option Nat → Except String OutPinId
  | [], some n, some o => Except.ok ⟨n, o⟩
  | [], none, _ => Except.error "missing field node"
  | [], _, none => Except.error "missing field output"
  | ("node", v) :: rest, accn, acco =>
    match accn with
    | some _ => Except.error "duplicate field node"
    | none => do
      let n ← dNum v
      dOutPinGo rest (some n) acco
  | ("output", v) :: rest, accn, acco =>
    match acco with
    | some _ => Except.error "duplicate field output"
    | none => do
      let o ← dNum v
      dOutPinGo rest accn (some o)
  | _ :: rest, accn, acco => dOutPinGo rest accn acco

/-- Derived struct deserialization of `InPinId` from a flattened field list
(fields `node`, `input`), with the same duplicate-field rejection. -/
def dInPinGo : List (String × SValue) → Option Nat → Option Nat → Except String InPinId
  | [], some n, some i => Except.ok ⟨n, i⟩
  | [], none, _ => Except.error "missing field node"
  | [], _, none => Except.error "missing field input"
  | ("node", v) :: rest, accn, acci =>
    match accn with
    | some _ => Except.error "duplicate field node"
    | none => do
      let n ← dNum v
      dInPinGo rest (some n) acci
  | ("input", v) :: rest, accn, acci =>
    match acci with
    | some _ => Except.error "duplicate field input"
    | none => do
      let i ← dNum v
      dInPinGo rest accn (some i)
  | _ :: rest, accn, acci => dInPinGo rest accn acci

/-- Deserialize a wire: buffer the object's fields and run both flattened pin
deserializers over them, as the derive for a struct whose fields all carry
`#[serde(flatten)]` does. -/
def dWire : SValue → Except String Wire
  | SValue.obj fields => do
    let o ← dOutPinGo fields none none
    let i ← dInPinGo fields none none
    Except.ok ⟨o, i⟩
  | _ => Except.error "expected map"

/-- Deserialize a sequence of wires in order. -/
def dWireList : List SValue → Except String (List Wire)
  | [] => Except.ok []
  | v :: rest => do
    let w ← dWire v
    let ws ← dWireList rest
    Except.ok (w :: ws)

/-- Deserialize the wire set (`transparent`). -/
def dWires (v : SValue) : Except String Wires :=
  match v with
  | SValue.arr xs => do
    let ws ← dWireList xs
    Except.ok ⟨ws⟩
  | _ => Except.error "expected sequence"

/-- Derived struct deserialization of a position. -/
def dPos2Go : List (String × SValue) → Option Int → Option Int → Except String Pos2
  | [], some x, some y => Except.ok ⟨x, y⟩
  | [], none, _ => Except.error "missing field x"
  | [], _, none => Except.error "missing field y"
  | ("x", v) :: rest, accx, accy =>
    match accx with
    | some _ => Except.error "duplicate field x"
    | none => do
      let x ← dCoord v
      dPos2Go rest (some x) accy
  | ("y", v) :: rest, accx, accy =>
    match accy with
    | some _ => Except.error "duplicate field y"
    | none => do
      let y ← dCoord v
      dPos2Go rest accx (some y)
  | _ :: rest, accx, accy => dPos2Go rest accx accy

/-- Deserialize a position object. -/
def dPos2 : SValue → Except String Pos2
  | SValue.obj fields => dPos2Go fields none none
  | _ => Except.error "expected map"

/-- Derived struct deserialization of a node record. -/
def dNodeGo : List (String × SValue) → Option String → Option Pos2 → Option Bool →
    Except String (Node String)
  | [], some v, some p, some o => Except.ok ⟨v, p, o⟩
  | [], none, _, _ => Except.error "missing field value"
  | [], _, none, _ => Except.error "missing field pos"
  | [], _, _, none => Except.error "missing field open"
  | ("value", sv) :: rest, accv, accp, acco =>
    match accv with
    | some _ => Except.error "duplicate field value"
    | none => do
      let v ← dStr sv
      dNodeGo rest (some v) accp acco
  | ("pos", sv) :: rest, accv, accp, acco =>
    match accp with
    | some _ => Except.error "duplicate field pos"
    | none => do
      let p ← dPos2 sv
      dNodeGo rest accv (some p) acco
  | ("open", sv) :: rest, accv, accp, acco =>
    match acco with
    | some _ => Except.error "duplicate field open"
    | none => do
      let b ← dBool sv
      dNodeGo rest accv accp (some b)
  | _ :: rest, accv, accp, acco => dNodeGo rest accv accp acco

/-- Deserialize a node record object. -/
def dNode (v : SValue) : Except String (Node String) :=
  match v with
  | SValue.obj fields => dNodeGo fields none none none
  | _ => Except.error "expected map"

/-- Parse the key/value entries of a serialized slab in order. -/
def dSlabPairs : List (Nat × SValue) → Except String (List (Nat × Node String))
  | [] => Except.ok []
  | (k, v) :: rest => do
    let nd ← dNode v
    let tail ← dSlabPairs rest
    Except.ok ((k, nd) :: tail)

/-- A run of `gap` vacant entries pushed while filling the hole below a slab
key, each pointing at the following index, as slab's `FromIterator` does. -/
def vacantRun (base : Nat) : Nat → List (Entry (Node String))
  | 0 => []
  | gap + 1 => Entry.vacant (base + 1) :: vacantRun (base + 1) gap

/-- Rebuild a slab entry vector from ascending key/node pairs (the only shape
slab's own serializer emits; the out-of-order repair path of its
`FromIterator` is not modelled and reports an error instead). -/
def slabFromPairs : List (Nat × Node String) → List (Entry (Node String)) → Nat →
    Except String (List (Entry (Node String)) × Nat)
  | [], entries, count => Except.ok (entries, count)
  | (k, nd) :: rest, entries, count =>
    if k < entries.length then Except.error "unsorted slab keys"
    else
      slabFromPairs rest
        (entries ++ vacantRun entries.length (k - entries.length) ++ [Entry.occupied nd])
        (count + 1)

/-- First vacant index of a rebuilt entry vector (the reconstructed free-list
head, as slab's deserialization computes it). -/
def firstVacantIdx : List (Entry (Node String)) → Nat → Option Nat
  | [], _ => none
  | Entry.vacant _ :: _, i => some i
  | Entry.occupied _ :: rest, i => firstVacantIdx rest (i + 1)

/-- Deserialize the node allocator. -/
def dSlab (v : SValue) : Except String (Slab (Node String)) :=
  match v with
  | SValue.nmap entries => do
    let pairs ← dSlabPairs entries
    let r ← slabFromPairs pairs [] 0
    Except.ok ⟨r.1, r.2, (firstVacantIdx r.1 0).getD r.1.length⟩
  | _ => Except.error "expected map"

/-- Deserialize a sequence of node identifiers. -/
def dNatList : List SValue → Except String (List Nat)
  | [] => Except.ok []
  | v :: rest => do
    let n ← dNum v
    let ns ← dNatList rest
    Except.ok (n :: ns)

/-- Deserialize the draw order. -/
def dDrawOrder : SValue → Except String (List Nat)
  | SValue.arr xs => dNatList xs
  | _ => Except.error "expected sequence"

/-- Derived struct deserialization of a container: fields consumed in
encounter order with duplicate-field rejection. -/
def dSnarlGo : List (String × SValue) → Option (Slab (Node String)) → Option (List Nat) →
    Option Wires → Except String (Snarl String)
  | [], some ns, some dr, some ws => Except.ok ⟨ns, dr, ws⟩
  | [], none, _, _ => Except.error "missing field nodes"
  | [], _, none, _ => Except.error "missing field draw_order"
  | [], _, _, none => Except.error "missing field wires"
  | ("nodes", v) :: rest, accn, accd, accw =>
    match accn with
    | some _ => Except.error "duplicate field nodes"
    | none => do
      let ns ← dSlab v
      dSnarlGo rest (some ns) accd accw
  | ("draw_order", v) :: rest, accn, accd, accw =>
    match accd with
    | some _ => Except.error "duplicate field draw_order"
    | none => do
      let dr ← dDrawOrder v
      dSnarlGo rest accn (some dr) accw
  | ("wires", v) :: rest, accn, accd, accw =>
    match accw with
    | some _ => Except.error "duplicate field wires"
    | none => do
      let ws ← dWires v
      dSnarlGo rest accn accd (some ws)
  | _ :: rest, accn, accd, accw => dSnarlGo rest accn accd accw

/-- Deserialize a whole container. -/
def dSnarl (v : SValue) : Except String (Snarl String) :=
  match v with
  | SValue.obj fields => dSnarlGo fields none none none
  | _ => Except.error "expected map"

/-
Concrete states used by the scenario claim, the counterexample, the failing
round-trip input and the witnesses.
-/

/-- Position (0, 0) of the scenario. -/
def posA : Pos2 := ⟨0, 0⟩

/-- Position (10, 10) of the scenario. -/
def posB : Pos2 := ⟨10, 10⟩

/-- Output pin 0 of node 0. -/
def outPin0 : OutPinId := ⟨0, 0⟩

/-- Input pin 0 of node 1. -/
def inPin1 : InPinId := ⟨1, 0⟩

/-- Scenario step: add node "A" at (0, 0) to the empty container. -/
def step1 : Nat × Snarl String := (Snarl.new).add_node "A" posA

/-- Scenario step: then add node "B" at (10, 10). -/
def step2 : Nat × Snarl String := step1.2.add_node "B" posB

/-- Scenario step: connect output 0 of node 0 to input 0 of node 1. -/
def step3 : Bool × Snarl String := step2.2.connect outPin0 inPin1

/-- Scenario step: repeat the identical connect. -/
def step4 : Bool × Snarl String := step3.2.connect outPin0 inPin1

/-- Scenario step: remove node 0. -/
def step5 : Option String × Snarl String := step4.2.remove_node 0

/-
List-level helper lemmas.
-/

theorem get?_some_lt {α : Type} : ∀ (l : List α) (n : Nat) (a : α),
    l.get? n = some a → n < l.length
  | [], _, _, h => by cases h
  | _ :: _, 0, _, _ => Nat.succ_pos _
  | _ :: xs, n + 1, a, h => Nat.succ_lt_succ (get?_some_lt xs n a h)

theorem get?_len_le {α : Type} : ∀ (l : List α) (n : Nat), l.length ≤ n → l.get? n = none
  | [], _, _ => rfl
  | _ :: _, 0, h => absurd h (by simp)
  | _ :: xs, n + 1, h => get?_len_le xs n (Nat.le_of_succ_le_succ h)

theorem get?_append_lt {α : Type} : ∀ (l l' : List α) (n : Nat), n < l.length →
    (l ++ l').get? n = l.get? n
  | [], _, _, h => absurd h (by simp)
  | _ :: _, _, 0, _ => rfl
  | _ :: xs, l', n + 1, h => get?_append_lt xs l' n (Nat.lt_of_succ_lt_succ h)

theorem get?_snoc_len {α : Type} : ∀ (l : List α) (a : α), (l ++ [a]).get? l.length = some a
  | [], _ => rfl
  | _ :: xs, a => get?_snoc_len xs a

theorem get?_snoc_ne {α : Type} (l : List α) (a : α) (j : Nat) (h : j ≠ l.length) :
    (l ++ [a]).get? j = l.get? j := by
  rcases Nat.lt_or_ge j l.length with hlt | hge
  · exact get?_append_lt l [a] j hlt
  · have h1 : l.length < j := Nat.lt_of_le_of_ne hge (Ne.symm h)
    rw [get?_len_le l j hge, get?_len_le (l ++ [a]) j (by simp; omega)]

theorem get?_set_self {α : Type} : ∀ (l : List α) (k : Nat) (a : α), k < l.length →
    (l.set k a).get? k = some a
  | [], _, _, h => absurd h (by simp)
  | _ :: _, 0, _, _ => rfl
  | _ :: xs, k + 1, a, h => get?_set_self xs k a (Nat.lt_of_succ_lt_succ h)

theorem get?_set_other {α : Type} : ∀ (l : List α) (k j : Nat) (a : α), k ≠ j →
    (l.set k a).get? j = l.get? j
  | [], _, _, _, _ => rfl
  | _ :: _, 0, 0, _, h => absurd rfl h
  | _ :: _, 0, _ + 1, _, _ => rfl
  | _ :: _, _ + 1, 0, _, _ => rfl
  | _ :: xs, k + 1, j + 1, a, h => get?_set_other xs k j a (fun he => h (by rw [he]))

theorem length_filter_split {α : Type} (p : α → Bool) :
    ∀ l : List α, l.length = (l.filter p).length + (l.filter fun a => !(p a)).length
  | [] => rfl
  | x :: xs => by
    cases hx : p x <;>
      simp [List.filter_cons, hx, length_filter_split p xs] <;> omega

theorem filter_ext {α : Type} (p q : α → Bool) (h : ∀ a, p a = q a) :
    ∀ l : List α, l.filter p = l.filter q
  | [] => rfl
  | x :: xs => by
    simp only [List.filter_cons, h x, filter_ext p q h xs]

theorem position_none_iff (l : List Nat) (a : Nat) : position l a = none ↔ a ∉ l := by
  induction l with
  | nil => simp [position]
  | cons i rest ih =>
    by_cases hi : i = a
    · subst hi
      simp [position]
    · simp only [position, if_neg hi, Option.map_eq_none', ih, List.mem_cons]
      constructor
      · rintro hn (rfl | hm)
        · exact hi rfl
        · exact hn hm
      · intro hn hm
        exact hn (Or.inr hm)

theorem position_some_of_mem {l : List Nat} {a : Nat} (h : a ∈ l) :
    ∃ j, position l a = some j := by
  cases hp : position l a with
  | some j => exact ⟨j, rfl⟩
  | none => exact absurd h ((position_none_iff l a).mp hp)

theorem position_eq_some {a : Nat} : ∀ {l : List Nat} {j : Nat}, position l a = some j →
    ∃ l1 l2, l = l1 ++ a :: l2 ∧ j = l1.length ∧ l.eraseIdx j = l1 ++ l2 ∧ a ∉ l1 := by
  intro l
  induction l with
  | nil => intro j h; cases h
  | cons i rest ih =>
    intro j h
    by_cases hi : i = a
    · subst hi
      rw [position, if_pos rfl] at h
      cases h
      exact ⟨[], rest, rfl, rfl, rfl, by simp⟩
    · rw [position, if_neg hi] at h
      rcases hp : position rest a with _ | j'
      · rw [hp] at h; cases h
      · rw [hp] at h
        cases h
        obtain ⟨l1, l2, he, hl, her, hn⟩ := ih hp
        refine ⟨i :: l1, l2, by simp [he], by simp [hl], ?_, ?_⟩
        · show (i :: rest).eraseIdx (j' + 1) = (i :: l1) ++ l2
          simp only [List.eraseIdx, her, List.cons_append]
        · intro hm
          rcases List.mem_cons.mp hm with rfl | hm'
          · exact hi rfl
          · exact hn hm'

/-
Free-list and slab lemmas.
-/

theorem freeChain_congr {T : Type} {E E' : List (Entry T)} {k : Nat} {fl : List Nat}
    (hlen : E'.length = E.length) (hget : ∀ j ∈ fl, E'.get? j = E.get? j)
    (h : FreeChain E k fl) : FreeChain E' k fl := by
  induction h with
  | nil =>
    rw [← hlen]
    exact FreeChain.nil
  | @cons k n ks hk _hc ih =>
    exact FreeChain.cons
      (by rw [hget k (List.mem_cons_self k ks)]; exact hk)
      (ih fun j hj => hget j (List.mem_cons_of_mem k hj))

theorem freeChain_cases {T : Type} {E : List (Entry T)} {k : Nat} {fl : List Nat}
    (h : FreeChain E k fl) :
    (k = E.length ∧ fl = []) ∨
      ∃ n ks, fl = k :: ks ∧ E.get? k = some (Entry.vacant n) ∧ FreeChain E n ks := by
  cases h with
  | nil => exact Or.inl ⟨rfl, rfl⟩
  | cons hk hc => exact Or.inr ⟨_, _, rfl, hk, hc⟩

theorem Slab.contains_congr {T : Type} {s s' : Slab T} {key : Nat}
    (h : s'.entries.get? key = s.entries.get? key) : s'.contains key = s.contains key := by
  unfold Slab.contains
  rw [h]

theorem Slab.contains_true_iff {T : Type} (s : Slab T) (key : Nat) :
    s.contains key = true ↔ ∃ v, s.entries.get? key = some (Entry.occupied v) := by
  constructor
  · intro h
    unfold Slab.contains at h
    split at h
    · next v heq => exact ⟨v, heq⟩
    · cases h
  · rintro ⟨v, hv⟩
    unfold Slab.contains
    rw [hv]

theorem Slab.new_wf {T : Type} : (Slab.new : Slab T).WF :=
  ⟨[], FreeChain.nil, List.nodup_nil, fun i => by simp [Slab.new]⟩

theorem Slab.insert_push {T : Type} (s : Slab T) (v : T) (h : s.next = s.entries.length) :
    s.insert v = (s.next, ⟨s.entries ++ [Entry.occupied v], s.len + 1, s.next + 1⟩) := by
  unfold Slab.insert
  rw [if_pos h]

theorem Slab.insert_reuse {T : Type} (s : Slab T) (v : T) {n : Nat}
    (hget : s.entries.get? s.next = some (Entry.vacant n)) :
    s.insert v = (s.next, ⟨s.entries.set s.next (Entry.occupied v), s.len + 1, n⟩) := by
  have hne : s.next ≠ s.entries.length := by
    intro he
    rw [he, get?_len_le s.entries _ (Nat.le_refl _)] at hget
    cases hget
  unfold Slab.insert
  rw [if_neg hne, hget]

theorem Slab.insert_spec {T : Type} (s : Slab T) (v : T) (h : s.WF) :
    (s.insert v).2.WF ∧
    s.contains (s.insert v).1 = false ∧
    (s.insert v).2.contains (s.insert v).1 = true ∧
    ∀ j, j ≠ (s.insert v).1 → (s.insert v).2.entries.get? j = s.entries.get? j := by
  obtain ⟨fl, hchain, hnd, hiff⟩ := h
  rcases freeChain_cases hchain with ⟨hlen, rfl⟩ | ⟨n, ks, rfl, hget, hchain'⟩
  · -- free list empty: `next` points one past the end, the vector grows
    rw [Slab.insert_push s v hlen]
    dsimp only
    refine ⟨⟨[], ?_, List.nodup_nil, ?_⟩, ?_, ?_, ?_⟩
    · have he : s.next + 1 = (s.entries ++ [Entry.occupied v]).length := by
        simp [hlen]
      rw [he]
      exact FreeChain.nil
    · intro i
      simp only [List.not_mem_nil, iff_false]
      rintro ⟨m, hm⟩
      rcases Nat.lt_trichotomy i s.entries.length with hlt | heq | hgt
      · rw [get?_append_lt _ _ _ hlt] at hm
        exact List.not_mem_nil i ((hiff i).mp ⟨m, hm⟩)
      · subst heq
        rw [get?_snoc_len] at hm
        cases hm
      · rw [get?_len_le _ _ (by simp; omega)] at hm
        cases hm
    · unfold Slab.contains
      rw [hlen, get?_len_le _ _ (Nat.le_refl _)]
    · unfold Slab.contains
      rw [show (Slab.mk (s.entries ++ [Entry.occupied v]) (s.len + 1) (s.next + 1)).entries
            = s.entries ++ [Entry.occupied v] from rfl]
      rw [hlen, get?_snoc_len]
    · intro j hj
      exact get?_snoc_ne _ _ _ (fun he => hj (by rw [he, hlen]))
  · -- free list nonempty: the vacant head slot is reused
    have hkey : s.next ∉ ks := (List.nodup_cons.mp hnd).1
    have hlt : s.next < s.entries.length := get?_some_lt _ _ _ hget
    rw [Slab.insert_reuse s v hget]
    dsimp only
    refine ⟨⟨ks, ?_, (List.nodup_cons.mp hnd).2, ?_⟩, ?_, ?_, ?_⟩
    · refine freeChain_congr (by simp) (fun j hj => ?_) hchain'
      exact get?_set_other _ _ _ _ (fun he => hkey (by rw [he]; exact hj))
    · intro i
      by_cases hik : i = s.next
      · subst hik
        rw [get?_set_self _ _ _ hlt]
        constructor
        · rintro ⟨m, hm⟩
          cases hm
        · intro hm
          exact absurd hm hkey
      · rw [get?_set_other _ _ _ _ (fun he => hik he.symm)]
        rw [hiff i]
        simp only [List.mem_cons]
        constructor
        · rintro (rfl | hm)
          · exact absurd rfl hik
          · exact hm
        · exact Or.inr
    · unfold Slab.contains
      rw [hget]
    · unfold Slab.contains
      rw [show (Slab.mk (s.entries.set s.next (Entry.occupied v)) (s.len + 1) n).entries
            = s.entries.set s.next (Entry.occupied v) from rfl]
      rw [get?_set_self _ _ _ hlt]
    · intro j hj
      exact get?_set_other _ _ _ _ (fun he => hj he.symm)

theorem Slab.remove_fail {T : Type} (s : Slab T) (key : Nat) (h : s.contains key = false) :
    s.remove key = (none, s) := by
  unfold Slab.remove
  split
  · next v heq =>
    rw [(Slab.contains_true_iff s key).mpr ⟨v, heq⟩] at h
    cases h
  · rfl

theorem Slab.remove_occ {T : Type} (s : Slab T) (key : Nat) {v : T}
    (hg : s.entries.get? key = some (Entry.occupied v)) :
    s.remove key = (some v, ⟨s.entries.set key (Entry.vacant s.next), s.len - 1, key⟩) := by
  unfold Slab.remove
  rw [hg]

theorem Slab.remove_wf {T : Type} (s : Slab T) (key : Nat) {v : T}
    (hg : s.entries.get? key = some (Entry.occupied v)) (h : s.WF) :
    (Slab.mk (s.entries.set key (Entry.vacant s.next)) (s.len - 1) key : Slab T).WF := by
  obtain ⟨fl, hchain, hnd, hiff⟩ := h
  have hlt : key < s.entries.length := get?_some_lt _ _ _ hg
  have hkfl : key ∉ fl := by
    intro hm
    obtain ⟨m, hm'⟩ := (hiff key).mpr hm
    rw [hg] at hm'
    cases hm'
  refine ⟨key :: fl, ?_, List.nodup_cons.mpr ⟨hkfl, hnd⟩, ?_⟩
  · exact @FreeChain.cons T (s.entries.set key (Entry.vacant s.next)) key s.next fl
      (get?_set_self _ _ _ hlt)
      (freeChain_congr (by simp)
        (fun j hj => get?_set_other _ _ _ _ (fun he => hkfl (by rw [he]; exact hj))) hchain)
  · intro i
    by_cases hik : i = key
    · subst hik
      rw [get?_set_self _ _ _ hlt]
      constructor
      · intro _
        exact List.mem_cons_self _ _
      · intro _
        exact ⟨s.next, rfl⟩
    · rw [get?_set_other _ _ _ _ (fun he => hik he.symm)]
      rw [hiff i]
      simp only [List.mem_cons]
      constructor
      · exact Or.inr
      · rintro (rfl | hm)
        · exact absurd rfl hik
        · exact hm

theorem Slab.remove_contains {T : Type} (s : Slab T) (key i : Nat) {v : T}
    (hg : s.entries.get? key = some (Entry.occupied v)) :
    (Slab.mk (s.entries.set key (Entry.vacant s.next)) (s.len - 1) key : Slab T).contains i
      = if i = key then false else s.contains i := by
  by_cases hik : i = key
  · subst hik
    rw [if_pos rfl]
    unfold Slab.contains
    rw [show (Slab.mk (s.entries.set i (Entry.vacant s.next)) (s.len - 1) i).entries
          = s.entries.set i (Entry.vacant s.next) from rfl]
    rw [get?_set_self _ _ _ (get?_some_lt _ _ _ hg)]
  · rw [if_neg hik]
    exact Slab.contains_congr (get?_set_other _ _ _ _ (fun he => hik he.symm))

/-
Container-level invariant lemmas.
-/

theorem Snarl.remove_node_fail_eq {T : Type} (s : Snarl T) (idx : Nat)
    (h : s.nodes.contains idx = false) : s.remove_node idx = (none, s) := by
  unfold Snarl.remove_node
  rw [Slab.remove_fail s.nodes idx h]

theorem Snarl.remove_node_found {T : Type} (s : Snarl T) (idx : Nat) {nd : Node T} {j : Nat}
    (hg : s.nodes.entries.get? idx = some (Entry.occupied nd))
    (hp : position s.draw_order idx = some j) :
    s.remove_node idx = (some nd.value,
      ⟨⟨s.nodes.entries.set idx (Entry.vacant s.nodes.next), s.nodes.len - 1, idx⟩,
        s.draw_order.eraseIdx j, s.wires.drop_node idx⟩) := by
  unfold Snarl.remove_node
  rw [Slab.remove_occ s.nodes idx hg, hp]

theorem Snarl.new_inv {T : Type} : (Snarl.new : Snarl T).Inv := by
  refine ⟨Slab.new_wf, List.nodup_nil, ?_⟩
  intro i
  constructor
  · intro h
    exact absurd h (List.not_mem_nil i)
  · intro h
    rw [show (Snarl.new : Snarl T).nodes.contains i = false from rfl] at h
    cases h

theorem Snarl.add_inv_aux {T : Type} (s : Snarl T) (nd : Node T) (h : s.Inv) :
    ((s.nodes.insert nd).2 : Slab (Node T)).WF ∧
    (s.draw_order ++ [(s.nodes.insert nd).1]).Nodup ∧
    ∀ i : Nat,
      i ∈ s.draw_order ++ [(s.nodes.insert nd).1] ↔ (s.nodes.insert nd).2.contains i = true := by
  obtain ⟨hwf, hnd, hiff⟩ := h
  obtain ⟨hwf', hcf, hct, hothers⟩ := Slab.insert_spec s.nodes nd hwf
  refine ⟨hwf', ?_, ?_⟩
  · rw [List.nodup_append]
    refine ⟨hnd, List.nodup_singleton _, ?_⟩
    intro a ha hb
    rw [List.mem_singleton] at hb
    subst hb
    have ha' := (hiff _).mp ha
    rw [hcf] at ha'
    cases ha'
  · intro i
    by_cases hik : i = (s.nodes.insert nd).1
    · subst hik
      constructor
      · intro _
        exact hct
      · intro _
        exact List.mem_append_right _ (List.mem_singleton_self _)
    · rw [Slab.contains_congr (hothers i hik)]
      rw [List.mem_append, List.mem_singleton]
      constructor
      · rintro (hm | rfl)
        · exact (hiff i).mp hm
        · exact absurd rfl hik
      · intro hc
        exact Or.inl ((hiff i).mpr hc)

theorem Snarl.add_node_inv {T : Type} (s : Snarl T) (v : T) (p : Pos2) (h : s.Inv) :
    (s.add_node v p).2.Inv := by
  obtain ⟨h1, h2, h3⟩ := Snarl.add_inv_aux s ⟨v, p, true⟩ h
  exact ⟨h1, h2, h3⟩

theorem Snarl.add_node_collapsed_inv {T : Type} (s : Snarl T) (v : T) (p : Pos2) (h : s.Inv) :
    (s.add_node_collapsed v p).2.Inv := by
  obtain ⟨h1, h2, h3⟩ := Snarl.add_inv_aux s ⟨v, p, false⟩ h
  exact ⟨h1, h2, h3⟩

theorem Snarl.remove_node_inv {T : Type} (s : Snarl T) (idx : Nat) (h : s.Inv) :
    (s.remove_node idx).2.Inv := by
  obtain ⟨hwf, hnd, hiff⟩ := h
  cases hc : s.nodes.contains idx with
  | false =>
    rw [Snarl.remove_node_fail_eq s idx hc]
    exact ⟨hwf, hnd, hiff⟩
  | true =>
    obtain ⟨nd, hg⟩ := (Slab.contains_true_iff _ _).mp hc
    obtain ⟨j, hp⟩ := position_some_of_mem ((hiff idx).mpr hc)
    rw [Snarl.remove_node_found s idx hg hp]
    obtain ⟨l1, l2, hsplit, hj, herase, hnotl1⟩ := position_eq_some hp
    have hnotl2 : idx ∉ l2 := by
      rw [hsplit, List.nodup_append] at hnd
      exact (List.nodup_cons.mp hnd.2.1).1
    dsimp only
    refine ⟨Slab.remove_wf s.nodes idx hg hwf, ?_, ?_⟩
    · rw [herase]
      rw [hsplit, List.nodup_append] at hnd
      rw [List.nodup_append]
      exact ⟨hnd.1, (List.nodup_cons.mp hnd.2.1).2,
        fun a ha hb => hnd.2.2 ha (List.mem_cons_of_mem _ hb)⟩
    · intro i
      rw [herase, Slab.remove_contains s.nodes idx i hg]
      by_cases hik : i = idx
      · subst hik
        rw [if_pos rfl]
        simp only [List.mem_append]
        constructor
        · rintro (hm | hm)
          · exact absurd hm hnotl1
          · exact absurd hm hnotl2
        · intro hft
          cases hft
      · rw [if_neg hik, ← hiff i, hsplit]
        simp only [List.mem_append, List.mem_cons]
        constructor
        · rintro (hm | hm)
          · exact Or.inl hm
          · exact Or.inr (Or.inr hm)
        · rintro (hm | rfl | hm)
          · exact Or.inl hm
          · exact absurd rfl hik
          · exact Or.inr hm

theorem Snarl.step_inv {T : Type} (s : Snarl T) (op : Op T) (h : s.Inv) : (s.step op).Inv := by
  cases op with
  | add v p => exact Snarl.add_node_inv s v p h
  | add_collapsed v p => exact Snarl.add_node_collapsed_inv s v p h
  | remove idx => exact Snarl.remove_node_inv s idx h

theorem Snarl.foldl_inv {T : Type} :
    ∀ (ops : List (Op T)) (s : Snarl T), s.Inv → (ops.foldl Snarl.step s).Inv
  | [], _, h => h
  | op :: ops, s, h => Snarl.foldl_inv ops (s.step op) (Snarl.step_inv s op h)

theorem Snarl.run_inv {T : Type} (ops : List (Op T)) : (Snarl.run ops).Inv :=
  Snarl.foldl_inv ops Snarl.new Snarl.new_inv

/-
Wire-set lemmas.
-/

theorem Wires.insert_of_not_mem (ws : Wires) (w : Wire) (h : w ∉ ws.wires) :
    ws.insert w = (true, ⟨ws.wires ++ [w]⟩) := by
  unfold Wires.insert
  rw [if_neg h]

theorem Wires.insert_of_mem (ws : Wires) (w : Wire) (h : w ∈ ws.wires) :
    ws.insert w = (false, ws) := by
  unfold Wires.insert
  rw [if_pos h]

theorem Wires.insert_nodup (ws : Wires) (w : Wire) (h : ws.wires.Nodup) :
    (ws.insert w).2.wires.Nodup := by
  by_cases hm : w ∈ ws.wires
  · rw [Wires.insert_of_mem ws w hm]
    exact h
  · rw [Wires.insert_of_not_mem ws w hm]
    rw [List.nodup_append]
    exact ⟨h, List.nodup_singleton w,
      fun a ha hb => hm ((List.mem_singleton.mp hb) ▸ ha)⟩

theorem drop_node_filter (ws : Wires) (n : Nat) :
    (ws.drop_node n).wires = ws.wires.filter fun w => !(wireTouches w n) := by
  unfold Wires.drop_node
  exact filter_ext _ _ (fun w => by simp [wireTouches, bne, Bool.not_or]) ws.wires

theorem drop_node_count (ws : Wires) (n : Nat) :
    ws.wires.length
      = (ws.drop_node n).wires.length + (ws.wires.filter fun w => wireTouches w n).length := by
  rw [drop_node_filter]
  have h := length_filter_split (fun w => wireTouches w n) ws.wires
  omega

theorem drop_node_no_touch (ws : Wires) (n : Nat) :
    ∀ w ∈ (ws.drop_node n).wires, wireTouches w n = false := by
  intro w hw
  rw [drop_node_filter] at hw
  have h := (List.mem_filter.mp hw).2
  cases ht : wireTouches w n
  · rfl
  · rw [ht] at h
    cases h

theorem Snarl.connect_of_not_mem {T : Type} (s : Snarl T) (o : OutPinId) (i : InPinId)
    (h : (⟨o, i⟩ : Wire) ∉ s.wires.wires) :
    s.connect o i = (true, ⟨s.nodes, s.draw_order, ⟨s.wires.wires ++ [⟨o, i⟩]⟩⟩) := by
  unfold Snarl.connect
  rw [Wires.insert_of_not_mem s.wires _ h]

theorem Snarl.connect_of_mem {T : Type} (s : Snarl T) (o : OutPinId) (i : InPinId)
    (h : (⟨o, i⟩ : Wire) ∈ s.wires.wires) :
    s.connect o i = (false, s) := by
  unfold Snarl.connect
  rw [Wires.insert_of_mem s.wires _ h]

theorem mem_wired_inputs (ws : Wires) (p : OutPinId) (i : InPinId)
    (h : wire_pins p i ∈ ws.wires) : i ∈ ws.wired_inputs p := by
  unfold Wires.wired_inputs
  refine List.mem_map.mpr ⟨wire_pins p i, ?_, rfl⟩
  refine List.mem_filter.mpr ⟨h, ?_⟩
  simp [wire_pins]

theorem mem_wired_outputs (ws : Wires) (q : InPinId) (o : OutPinId)
    (h : wire_pins o q ∈ ws.wires) : o ∈ ws.wired_outputs q := by
  unfold Wires.wired_outputs
  refine List.mem_map.mpr ⟨wire_pins o q, ?_, rfl⟩
  refine List.mem_filter.mpr ⟨h, ?_⟩
  simp [wire_pins]

theorem wired_inputs_append (ws : List Wire) (p : OutPinId) (ins : List InPinId) :
    Wires.wired_inputs ⟨ws ++ ins.map (wire_pins p)⟩ p
      = Wires.wired_inputs ⟨ws⟩ p ++ ins := by
  unfold Wires.wired_inputs
  rw [List.filter_append, List.map_append]
  congr 1
  induction ins with
  | nil => rfl
  | cons i rest ih =>
    simp only [List.map_cons, List.filter_cons]
    rw [if_pos (by simp [wire_pins])]
    simp only [List.map_cons, ih]
    rfl

theorem wired_outputs_append (ws : List Wire) (q : InPinId) (outs : List OutPinId) :
    Wires.wired_outputs ⟨ws ++ outs.map (fun o => wire_pins o q)⟩ q
      = Wires.wired_outputs ⟨ws⟩ q ++ outs := by
  unfold Wires.wired_outputs
  rw [List.filter_append, List.map_append]
  congr 1
  induction outs with
  | nil => rfl
  | cons o rest ih =>
    simp only [List.map_cons, List.filter_cons]
    rw [if_pos (by simp [wire_pins])]
    simp only [List.map_cons, ih]
    rfl

theorem connect_inputs_spec {T : Type} (p : OutPinId) :
    ∀ (ins : List InPinId) (s : Snarl T), ins.Nodup →
      (∀ i ∈ ins, wire_pins p i ∉ s.wires.wires) →
      (connect_inputs s p ins).1 = List.replicate ins.length true ∧
      (connect_inputs s p ins).2.wires.wires = s.wires.wires ++ ins.map (wire_pins p)
  | [], s, _, _ =>
    ⟨rfl, by
      show s.wires.wires = s.wires.wires ++ List.map (wire_pins p) []
      simp⟩
  | i :: rest, s, hnd, hnotin => by
    have hni : wire_pins p i ∉ s.wires.wires := hnotin i (List.mem_cons_self i rest)
    have hconn := Snarl.connect_of_not_mem s p i hni
    have hrest : ∀ j ∈ rest,
        wire_pins p j ∉ s.wires.wires ++ [(⟨p, i⟩ : Wire)] := by
      intro j hj hm
      rcases List.mem_append.mp hm with hm' | hm'
      · exact hnotin j (List.mem_cons_of_mem i hj) hm'
      · rw [List.mem_singleton] at hm'
        have : j = i := congrArg Wire.in_pin hm'
        subst this
        exact (List.nodup_cons.mp hnd).1 hj
    have ih := connect_inputs_spec p rest
      ⟨s.nodes, s.draw_order, ⟨s.wires.wires ++ [⟨p, i⟩]⟩⟩
      (List.nodup_cons.mp hnd).2 hrest
    show (s.connect p i).1 :: (connect_inputs (s.connect p i).2 p rest).1
        = List.replicate (i :: rest).length true ∧
      (connect_inputs (s.connect p i).2 p rest).2.wires.wires
        = s.wires.wires ++ List.map (wire_pins p) (i :: rest)
    rw [hconn]
    dsimp only
    refine ⟨?_, ?_⟩
    · rw [ih.1]
      rfl
    · rw [ih.2]
      simp [wire_pins]

theorem connect_outputs_spec {T : Type} (q : InPinId) :
    ∀ (outs : List OutPinId) (s : Snarl T), outs.Nodup →
      (∀ o ∈ outs, wire_pins o q ∉ s.wires.wires) →
      (connect_outputs s q outs).1 = List.replicate outs.length true ∧
      (connect_outputs s q outs).2.wires.wires
        = s.wires.wires ++ outs.map (fun o => wire_pins o q)
  | [], s, _, _ =>
    ⟨rfl, by
      show s.wires.wires = s.wires.wires ++ List.map (fun o => wire_pins o q) []
      simp⟩
  | o :: rest, s, hnd, hnotin => by
    have hno : wire_pins o q ∉ s.wires.wires := hnotin o (List.mem_cons_self o rest)
    have hconn := Snarl.connect_of_not_mem s o q hno
    have hrest : ∀ p' ∈ rest,
        wire_pins p' q ∉ s.wires.wires ++ [(⟨o, q⟩ : Wire)] := by
      intro p' hp hm
      rcases List.mem_append.mp hm with hm' | hm'
      · exact hnotin p' (List.mem_cons_of_mem o hp) hm'
      · rw [List.mem_singleton] at hm'
        have : p' = o := congrArg Wire.out_pin hm'
        subst this
        exact (List.nodup_cons.mp hnd).1 hp
    have ih := connect_outputs_spec q rest
      ⟨s.nodes, s.draw_order, ⟨s.wires.wires ++ [⟨o, q⟩]⟩⟩
      (List.nodup_cons.mp hnd).2 hrest
    show (s.connect o q).1 :: (connect_outputs (s.connect o q).2 q rest).1
        = List.replicate (o :: rest).length true ∧
      (connect_outputs (s.connect o q).2 q rest).2.wires.wires
        = s.wires.wires ++ List.map (fun o => wire_pins o q) (o :: rest)
    rw [hconn]
    dsimp only
    refine ⟨?_, ?_⟩
    · rw [ih.1]
      rfl
    · rw [ih.2]
      simp [wire_pins]


/-
Claim theorems.
-/

/-- C1: for every container state whose draw order satisfies the documented
invariant and every live node `n` with `k` wires having `n` as either endpoint,
`remove_node n` returns `n`'s stored payload, removes exactly the wires
touching `n` (the wire count drops by exactly `k`), and removes the one
occurrence of `n` from the draw order; afterwards no wire touches `n` and `n`
is absent from the draw order. -/
theorem remove_node_cascade {T : Type} (s : Snarl T) (n : Nat)
    (hc : s.nodes.contains n = true)
    (hnd : s.draw_order.Nodup)
    (hmem : n ∈ s.draw_order) :
    ∃ nd : Node T, s.nodes.getValue n = some nd ∧
      (s.remove_node n).1 = some nd.value ∧
      s.wires.wires.length
        = (s.remove_node n).2.wires.wires.length
          + (s.wires.wires.filter fun w => wireTouches w n).length ∧
      (s.remove_node n).2.wires.wires = (s.wires.wires.filter fun w => !(wireTouches w n)) ∧
      (∀ w ∈ (s.remove_node n).2.wires.wires, wireTouches w n = false) ∧
      (∃ l1 l2, s.draw_order = l1 ++ n :: l2 ∧ (s.remove_node n).2.draw_order = l1 ++ l2) ∧
      n ∉ (s.remove_node n).2.draw_order := by
  obtain ⟨nd, hg⟩ := (Slab.contains_true_iff _ _).mp hc
  obtain ⟨j, hp⟩ := position_some_of_mem hmem
  obtain ⟨l1, l2, hsplit, hj, herase, hnotl1⟩ := position_eq_some hp
  have hnotl2 : n ∉ l2 := by
    rw [hsplit, List.nodup_append] at hnd
    exact (List.nodup_cons.mp hnd.2.1).1
  rw [Snarl.remove_node_found s n hg hp]
  dsimp only
  refine ⟨nd, ?_, rfl, drop_node_count s.wires n, drop_node_filter s.wires n,
    drop_node_no_touch s.wires n, ⟨l1, l2, hsplit, herase⟩, ?_⟩
  · unfold Slab.getValue
    rw [hg]
  · rw [herase]
    intro hm
    rcases List.mem_append.mp hm with h | h
    · exact hnotl1 h
    · exact hnotl2 h

/-- Witness for C1: applied to the concrete two-node, one-wire container of the
scenario, removing node 0. -/
theorem remove_node_cascade_witness :
    (step3.2.nodes.contains 0 = true ∧ step3.2.draw_order.Nodup ∧ 0 ∈ step3.2.draw_order) ∧
    (∃ nd : Node String, step3.2.nodes.getValue 0 = some nd ∧
      (step3.2.remove_node 0).1 = some nd.value ∧
      step3.2.wires.wires.length
        = (step3.2.remove_node 0).2.wires.wires.length
          + (step3.2.wires.wires.filter fun w => wireTouches w 0).length ∧
      (step3.2.remove_node 0).2.wires.wires
        = (step3.2.wires.wires.filter fun w => !(wireTouches w 0)) ∧
      (∀ w ∈ (step3.2.remove_node 0).2.wires.wires, wireTouches w 0 = false) ∧
      (∃ l1 l2, step3.2.draw_order = l1 ++ 0 :: l2 ∧
        (step3.2.remove_node 0).2.draw_order = l1 ++ l2) ∧
      0 ∉ (step3.2.remove_node 0).2.draw_order) :=
  ⟨⟨by decide, by decide, by decide⟩,
    remove_node_cascade step3.2 0 (by decide) (by decide) (by decide)⟩

/-- C2 counterexample: the claim quantifies over every container state, but at
a state that already contains the wire the first of the two identical `connect`
calls returns `false`, not `true`, and the wire count does not grow. -/
theorem connect_twice_counterexample :
    ¬ ((step3.2.connect outPin0 inPin1).1 = true ∧
       ((step3.2.connect outPin0 inPin1).2.connect outPin0 inPin1).1 = false ∧
       ((step3.2.connect outPin0 inPin1).2).wires.wires.length
         = step3.2.wires.wires.length + 1) := by
  decide

/-- C2 (amended): provided the wire is not already present, `connect` twice
with identical arguments returns `true` then `false`, grows the wire count by
exactly one, and the second call leaves the state unchanged; in general a
duplicate insertion is a no-op returning `false`, and `connect` never creates
a duplicate (it preserves duplicate-freedom of the wire set). -/
theorem connect_unique {T : Type} (s : Snarl T) (o : OutPinId) (i : InPinId) :
    ((⟨o, i⟩ : Wire) ∉ s.wires.wires →
      (s.connect o i).1 = true ∧
      ((s.connect o i).2.connect o i).1 = false ∧
      (s.connect o i).2.wires.wires.length = s.wires.wires.length + 1 ∧
      ((s.connect o i).2.connect o i).2 = (s.connect o i).2) ∧
    ((⟨o, i⟩ : Wire) ∈ s.wires.wires → s.connect o i = (false, s)) ∧
    (s.wires.wires.Nodup → (s.connect o i).2.wires.wires.Nodup) := by
  refine ⟨?_, Snarl.connect_of_mem s o i, fun hnd => Wires.insert_nodup s.wires _ hnd⟩
  intro hm
  rw [Snarl.connect_of_not_mem s o i hm]
  dsimp only
  have hmem : (⟨o, i⟩ : Wire) ∈ s.wires.wires ++ [⟨o, i⟩] :=
    List.mem_append_right _ (List.mem_singleton_self _)
  rw [Snarl.connect_of_mem _ o i hmem]
  exact ⟨rfl, rfl, by simp, rfl⟩

/-- Witness for C2: applied to the two-node container before any wire
exists. -/
theorem connect_unique_witness :
    ((⟨outPin0, inPin1⟩ : Wire) ∉ step2.2.wires.wires) ∧
    ((step2.2.connect outPin0 inPin1).1 = true ∧
      ((step2.2.connect outPin0 inPin1).2.connect outPin0 inPin1).1 = false ∧
      (step2.2.connect outPin0 inPin1).2.wires.wires.length
        = step2.2.wires.wires.length + 1 ∧
      ((step2.2.connect outPin0 inPin1).2.connect outPin0 inPin1).2
        = (step2.2.connect outPin0 inPin1).2) :=
  ⟨by decide, (connect_unique step2.2 outPin0 inPin1).1 (by decide)⟩

/-- C3: after every sequence of `add_node`, `add_node_collapsed` and
`remove_node` operations from the empty container, the draw order contains
each live node identifier exactly once and no dead one (a failed remove panics
with the state unchanged, so only removes of then-live identifiers mutate). -/
theorem draw_order_permutation {T : Type} (ops : List (Op T)) (i : Nat) :
    (Snarl.run ops).draw_order.count i
      = if (Snarl.run ops).nodes.contains i = true then 1 else 0 := by
  obtain ⟨_, hnd, hiff⟩ := Snarl.run_inv ops
  by_cases hc : (Snarl.run ops).nodes.contains i = true
  · rw [if_pos hc]
    exact List.count_eq_one_of_mem hnd ((hiff i).mpr hc)
  · rw [if_neg hc]
    refine List.count_eq_zero.mpr ?_
    intro hm
    exact hc ((hiff i).mp hm)

/-- C4: removing a dead identifier is a fatal precondition failure (the `none`
result models the panic — the call is not silently ignored, it returns no
payload); and for a live identifier, under the draw-order invariant, the
by-value position lookup in the draw order cannot return `none`, so the
`.unwrap()` failure branch is unreachable and the call succeeds. -/
theorem remove_node_precondition {T : Type} (s : Snarl T) (idx : Nat)
    (hinv : ∀ i : Nat, i ∈ s.draw_order ↔ s.nodes.contains i = true) :
    (s.nodes.contains idx = false → (s.remove_node idx).1 = none) ∧
    (s.nodes.contains idx = true →
      position s.draw_order idx ≠ none ∧ (s.remove_node idx).1 ≠ none) := by
  constructor
  · intro hc
    rw [Snarl.remove_node_fail_eq s idx hc]
  · intro hc
    obtain ⟨nd, hg⟩ := (Slab.contains_true_iff _ _).mp hc
    obtain ⟨j, hp⟩ := position_some_of_mem ((hinv idx).mpr hc)
    rw [Snarl.remove_node_found s idx hg hp, hp]
    exact ⟨fun h => Option.noConfusion h, fun h => Option.noConfusion h⟩

/-- Witness for C4: applied to the post-scenario container (live node 1, draw
order `[1]`), for the dead identifier 0 and the live identifier 1. -/
theorem remove_node_precondition_witness :
    (∀ i : Nat, i ∈ step5.2.draw_order ↔ step5.2.nodes.contains i = true) ∧
    (step5.2.nodes.contains 0 = false → (step5.2.remove_node 0).1 = none) ∧
    (step5.2.nodes.contains 1 = true →
      position step5.2.draw_order 1 ≠ none ∧ (step5.2.remove_node 1).1 ≠ none) := by
  have hlen : step5.2.nodes.entries.length = 2 := by decide
  have hdraw : step5.2.draw_order = [1] := by decide
  have hinv : ∀ i : Nat, i ∈ step5.2.draw_order ↔ step5.2.nodes.contains i = true := by
    intro i
    match i with
    | 0 => exact ⟨fun h => absurd h (by decide), fun h => absurd h (by decide)⟩
    | 1 => exact ⟨fun _ => by decide, fun _ => by decide⟩
    | m + 2 =>
      have hnone : step5.2.nodes.entries.get? (m + 2) = none :=
        get?_len_le _ _ (by omega)
      have hcf : step5.2.nodes.contains (m + 2) = false := by
        unfold Slab.contains
        rw [hnone]
      constructor
      · intro h
        rw [hdraw, List.mem_singleton] at h
        exact absurd h (by omega)
      · intro h
        rw [hcf] at h
        cases h
  exact ⟨hinv, (remove_node_precondition step5.2 0 hinv).1,
    (remove_node_precondition step5.2 1 hinv).2⟩

/-- C5: `connect` checks endpoint liveness only through the two
`debug_assert!` statements, which optimized builds compile out (the model
proceeds unconditionally, so a call with a dead endpoint returns normally);
such misuse never corrupts unrelated state: the node slots and the draw order
are untouched, every existing wire survives, and at most the one requested
(dangling) wire is added. -/
theorem connect_misuse_safe {T : Type} (s : Snarl T) (o : OutPinId) (i : InPinId)
    (_hdead : s.nodes.contains o.node = false ∨ s.nodes.contains i.node = false) :
    (s.connect o i).2.nodes = s.nodes ∧
    (s.connect o i).2.draw_order = s.draw_order ∧
    (∀ w ∈ s.wires.wires, w ∈ (s.connect o i).2.wires.wires) ∧
    ((s.connect o i).2.wires.wires = s.wires.wires ∨
      (s.connect o i).2.wires.wires = s.wires.wires ++ [⟨o, i⟩]) := by
  by_cases hm : (⟨o, i⟩ : Wire) ∈ s.wires.wires
  · rw [Snarl.connect_of_mem s o i hm]
    exact ⟨rfl, rfl, fun w hw => hw, Or.inl rfl⟩
  · rw [Snarl.connect_of_not_mem s o i hm]
    exact ⟨rfl, rfl, fun w hw => List.mem_append_left _ hw, Or.inr rfl⟩

/-- Witness for C5: connecting from the removed node 0 in the post-scenario
container. -/
theorem connect_misuse_safe_witness :
    (step5.2.nodes.contains outPin0.node = false ∨
      step5.2.nodes.contains inPin1.node = false) ∧
    ((step5.2.connect outPin0 inPin1).2.nodes = step5.2.nodes ∧
      (step5.2.connect outPin0 inPin1).2.draw_order = step5.2.draw_order ∧
      (∀ w ∈ step5.2.wires.wires, w ∈ (step5.2.connect outPin0 inPin1).2.wires.wires) ∧
      ((step5.2.connect outPin0 inPin1).2.wires.wires = step5.2.wires.wires ∨
        (step5.2.connect outPin0 inPin1).2.wires.wires
          = step5.2.wires.wires ++ [⟨outPin0, inPin1⟩])) :=
  ⟨Or.inl (by decide), connect_misuse_safe step5.2 outPin0 inPin1 (Or.inl (by decide))⟩

/-- C6: the concrete scenario: from the empty container, adding "A" returns
identifier 0, adding "B" returns 1, the first connect returns `true`, the
repeated connect returns `false`, and removing node 0 returns "A" and leaves
exactly one live node (identifier 1), zero wires and draw order `[1]`. -/
theorem scenario_concrete :
    step1.1 = 0 ∧ step2.1 = 1 ∧ step3.1 = true ∧ step4.1 = false ∧
    step5.1 = some "A" ∧ step5.2.nodes.liveCount = 1 ∧
    step5.2.nodes.contains 1 = true ∧ step5.2.wires.wires = [] ∧
    step5.2.draw_order = [1] := by
  decide

/-- C7: connecting one output pin to `N` pairwise-distinct input pins (starting
from a state with no wire leaving that output) returns `true` all `N` times and
`wired_inputs` then yields exactly those `N` endpoints up to order;
symmetrically for `N` distinct outputs into one input and `wired_outputs`. -/
theorem fan_out_fan_in {T : Type} :
    (∀ (s : Snarl T) (p : OutPinId) (ins : List InPinId),
      ins.Nodup → s.wires.wired_inputs p = [] →
      (connect_inputs s p ins).1 = List.replicate ins.length true ∧
      ((connect_inputs s p ins).2.wires.wired_inputs p).Perm ins) ∧
    (∀ (s : Snarl T) (q : InPinId) (outs : List OutPinId),
      outs.Nodup → s.wires.wired_outputs q = [] →
      (connect_outputs s q outs).1 = List.replicate outs.length true ∧
      ((connect_outputs s q outs).2.wires.wired_outputs q).Perm outs) := by
  constructor
  · intro s p ins hnd h0
    have hnotin : ∀ i ∈ ins, wire_pins p i ∉ s.wires.wires := by
      intro i _ hm
      have h := mem_wired_inputs s.wires p i hm
      rw [h0] at h
      exact List.not_mem_nil i h
    obtain ⟨h1, h2⟩ := connect_inputs_spec p ins s hnd hnotin
    refine ⟨h1, ?_⟩
    have he : (connect_inputs s p ins).2.wires
        = ⟨s.wires.wires ++ ins.map (wire_pins p)⟩ := congrArg Wires.mk h2
    rw [he, wired_inputs_append]
    show (s.wires.wired_inputs p ++ ins).Perm ins
    rw [h0, List.nil_append]
  · intro s q outs hnd h0
    have hnotin : ∀ o ∈ outs, wire_pins o q ∉ s.wires.wires := by
      intro o _ hm
      have h := mem_wired_outputs s.wires q o hm
      rw [h0] at h
      exact List.not_mem_nil o h
    obtain ⟨h1, h2⟩ := connect_outputs_spec q outs s hnd hnotin
    refine ⟨h1, ?_⟩
    have he : (connect_outputs s q outs).2.wires
        = ⟨s.wires.wires ++ outs.map (fun o => wire_pins o q)⟩ := congrArg Wires.mk h2
    rw [he, wired_outputs_append]
    show (s.wires.wired_outputs q ++ outs).Perm outs
    rw [h0, List.nil_append]

/-- Witness for C7: fan-out of output pin (0,0) to two distinct inputs of node
1, and fan-in of two distinct outputs of node 0 into input (1,0), both from the
wire-free two-node container. -/
theorem fan_out_fan_in_witness :
    (([⟨1, 0⟩, ⟨1, 1⟩] : List InPinId).Nodup ∧
      step2.2.wires.wired_inputs outPin0 = [] ∧
      ((connect_inputs step2.2 outPin0 [⟨1, 0⟩, ⟨1, 1⟩]).1 = List.replicate 2 true ∧
        ((connect_inputs step2.2 outPin0 [⟨1, 0⟩, ⟨1, 1⟩]).2.wires.wired_inputs
          outPin0).Perm [⟨1, 0⟩, ⟨1, 1⟩])) ∧
    (([⟨0, 0⟩, ⟨0, 1⟩] : List OutPinId).Nodup ∧
      step2.2.wires.wired_outputs inPin1 = [] ∧
      ((connect_outputs step2.2 inPin1 [⟨0, 0⟩, ⟨0, 1⟩]).1 = List.replicate 2 true ∧
        ((connect_outputs step2.2 inPin1 [⟨0, 0⟩, ⟨0, 1⟩]).2.wires.wired_outputs
          inPin1).Perm [⟨0, 0⟩, ⟨0, 1⟩])) :=
  ⟨⟨by decide, rfl, (@fan_out_fan_in String).1 step2.2 outPin0 [⟨1, 0⟩, ⟨1, 1⟩]
      (by decide) rfl⟩,
    ⟨by decide, rfl, (@fan_out_fan_in String).2 step2.2 inPin1 [⟨0, 0⟩, ⟨0, 1⟩]
      (by decide) rfl⟩⟩

/-- C8 (code bug): the serialized wire does flatten the four scalar fields, but
precisely because both flattened pins emit a field named `node`, the derived
deserializer rejects every serialized wire as having a duplicate field, so
serializing and then deserializing the two-node one-wire scenario container
fails instead of reproducing it. -/
theorem serde_round_trip_fails :
    serWire (wire_pins outPin0 inPin1)
      = SValue.obj [("node", SValue.num 0), ("output", SValue.num 0),
          ("node", SValue.num 1), ("input", SValue.num 0)] ∧
    dSnarl (serSnarl step3.2) = Except.error "duplicate field node" :=
  ⟨rfl, rfl⟩

/-- C9: the container re-exposes the Wire Set operations at container scope
(the wrappers are spec-modelled, since lib.rs's `impl Snarl` stops at `connect`
and the repository's `ui` module is not under src/): each one constructs a
`Wire` or takes a single pin and delegates to the corresponding Wire Set
operation, touching neither the node slots nor the draw order. -/
theorem container_delegates {T : Type} (s : Snarl T) (o : OutPinId) (i : InPinId)
    (pin_out : OutPinId) (pin_in : InPinId) :
    (s.disconnect o i).1 = (s.wires.remove (wire_pins o i)).1 ∧
    (s.disconnect o i).2.wires = (s.wires.remove (wire_pins o i)).2 ∧
    (s.disconnect o i).2.nodes = s.nodes ∧
    (s.disconnect o i).2.draw_order = s.draw_order ∧
    ((s.disconnect o i).1 = true ↔ wire_pins o i ∈ s.wires.wires) ∧
    (s.disconnect o i).2.wires.wires = s.wires.wires.erase (wire_pins o i) ∧
    (s.drop_inputs pin_in).wires = s.wires.drop_inputs pin_in ∧
    (s.drop_inputs pin_in).nodes = s.nodes ∧
    (s.drop_outputs pin_out).wires = s.wires.drop_outputs pin_out ∧
    s.wired_inputs pin_out = s.wires.wired_inputs pin_out ∧
    s.wired_outputs pin_in = s.wires.wired_outputs pin_in ∧
    s.wires_iter = s.wires.iter := by
  refine ⟨rfl, rfl, rfl, rfl, ?_, rfl, rfl, rfl, rfl, rfl, rfl, rfl⟩
  show (decide (wire_pins o i ∈ s.wires.wires)) = true ↔ wire_pins o i ∈ s.wires.wires
  exact decide_eq_true_iff

/-- C10: removing a dead identifier fails before any mutation: the slot
removal is the first action of `remove_node` and `Slab::try_remove` restores
the entry before the panic, so the failed call leaves node slots, wires and
draw order exactly as they were. -/
theorem remove_node_fail_atomic {T : Type} (s : Snarl T) (idx : Nat)
    (h : s.nodes.contains idx = false) :
    s.remove_node idx = (none, s) :=
  Snarl.remove_node_fail_eq s idx h

/-- Witness for C10: removing the dead identifier 7 from the scenario
container leaves it untouched. -/
theorem remove_node_fail_atomic_witness :
    step3.2.nodes.contains 7 = false ∧ step3.2.remove_node 7 = (none, step3.2) :=
  ⟨by decide, remove_node_fail_atomic step3.2 7 (by decide)⟩

end EguiSnarl
